import Mathlib

/-!
Verification of the chunked parallel inclusive scan (lab2, `src/main.cpp`).

The program computes an inclusive prefix sum over a vector of integers.
Its core is `parallelInclusiveScan(input, numThreads)`:

* for `numThreads <= 1` or `input.size() < 1000` it falls back to the
  sequential `inclusive_scan`;
* otherwise it splits the input into `numThreads` chunks of size
  `chunkSize = (n + numThreads - 1) / numThreads`, scans each chunk locally
  (phase 1, recording the last value of each chunk in `lastValues`), scans the
  `lastValues` vector itself (phase 2, producing `prefixSums`), and then adds
  `prefixSums[t-1]` to every element of chunk `t` for `t >= 1` (phase 3).

The embedding below models vectors as `List ℤ` (the template parameter `T`
is instantiated at `int` in the program; we model the integers exactly, and
thread counts as `ℤ` so that zero and negative requests are representable).
The per-thread bodies write disjoint index ranges of the shared result
vector and are joined before the next phase, so their parallel execution is
modelled by folding the per-chunk bodies sequentially over the chunk
indices, in index order.
-/

namespace Lab2

/-- `std::inclusive_scan` with a running accumulator:
`scanAux a [x₀, x₁, …] = [a + x₀, a + x₀ + x₁, …]`. -/
def scanAux (a : ℤ) : List ℤ → List ℤ
  | [] => []
  | x :: xs => (a + x) :: scanAux (a + x) xs

/-- `std::inclusive_scan(first, last, out)` over a whole vector. -/
def inclusiveScan (l : List ℤ) : List ℤ := scanAux 0 l

/-- Sum of the first `k` elements, `input[0] + … + input[k-1]`. -/
def sumTo (l : List ℤ) (k : ℕ) : ℤ := (l.take k).sum

/-- The sub-vector `l[s..e)` (the iterator range `begin()+s, begin()+e`). -/
def slice (l : List ℤ) (s e : ℕ) : List ℤ := (l.drop s).take (e - s)

/-- Writing a segment `seg` into a vector at offset `s`
(`copy` of the scanned chunk into `result.begin()+s`). -/
def writeSeg (res : List ℤ) (s : ℕ) (seg : List ℤ) : List ℤ :=
  res.take s ++ seg ++ res.drop (s + seg.length)

/-- The loop `for (i = start; i < fin; ++i) res[i] += offset;`. -/
def addLoop (res : List ℤ) (offset : ℤ) (i fin : ℕ) : List ℤ :=
  if i < fin then addLoop (res.set i (res.getD i 0 + offset)) offset (i + 1) fin
  else res
termination_by fin - i
decreasing_by omega

/-- `start = t * chunkSize` for chunk `t`. -/
def chunkStart (chunkSize t : ℕ) : ℕ := t * chunkSize

/-- `end = min(start + chunkSize, n)` for chunk `t`. -/
def chunkEnd (n chunkSize t : ℕ) : ℕ := min (chunkStart chunkSize t + chunkSize) n

/- ## Basic characterizations -/

theorem sumTo_zero (l : List ℤ) : sumTo l 0 = 0 := rfl

theorem sumTo_succ (l : List ℤ) (k : ℕ) (h : k < l.length) :
    sumTo l (k + 1) = sumTo l k + l.getD k 0 := by
  induction l generalizing k with
  | nil => simp at h
  | cons x xs ih =>
    cases k with
    | zero => simp [sumTo, List.getD]
    | succ k =>
      simp only [List.length_cons, Nat.add_lt_add_iff_right] at h
      simp only [sumTo, List.take_succ_cons, List.sum_cons, List.getD_cons_succ]
      have := ih k h
      simp only [sumTo] at this
      omega

theorem sumTo_length_le (l : List ℤ) (k : ℕ) (h : l.length ≤ k) :
    sumTo l k = l.sum := by
  simp [sumTo, List.take_of_length_le h]

theorem scanAux_length (a : ℤ) (l : List ℤ) : (scanAux a l).length = l.length := by
  induction l generalizing a with
  | nil => rfl
  | cons x xs ih => simp [scanAux, ih]

theorem scanAux_getD (a : ℤ) (l : List ℤ) (i : ℕ) (h : i < l.length) :
    (scanAux a l).getD i 0 = a + sumTo l (i + 1) := by
  induction l generalizing a i with
  | nil => simp at h
  | cons x xs ih =>
    cases i with
    | zero => simp [scanAux, sumTo]
    | succ i =>
      simp only [List.length_cons, Nat.add_lt_add_iff_right] at h
      have := ih (a + x) i h
      simp only [scanAux, List.getD_cons_succ, this, sumTo, List.take_succ_cons,
        List.sum_cons]
      ring

theorem inclusiveScan_length (l : List ℤ) : (inclusiveScan l).length = l.length :=
  scanAux_length 0 l

theorem inclusiveScan_getD (l : List ℤ) (i : ℕ) (h : i < l.length) :
    (inclusiveScan l).getD i 0 = sumTo l (i + 1) := by
  simpa using scanAux_getD 0 l i h

/- ## `getD` lemmas for vector writes -/

theorem getD_set_eq (l : List ℤ) (i : ℕ) (h : i < l.length) (v d : ℤ) :
    (l.set i v).getD i d = v := by
  simp [List.getD_eq_getElem, List.getElem_set, h]

theorem getD_set_ne (l : List ℤ) (i j : ℕ) (h : i ≠ j) (v d : ℤ) :
    (l.set i v).getD j d = l.getD j d := by
  rcases Nat.lt_or_ge j l.length with hj | hj
  · simp [List.getD_eq_getElem, hj, List.getElem_set, h]
  · rw [List.getD_eq_default _ _ (by simpa using hj), List.getD_eq_default _ _ hj]

theorem getD_take (l : List ℤ) (s i : ℕ) (h : i < s) (d : ℤ) :
    (l.take s).getD i d = l.getD i d := by
  rcases Nat.lt_or_ge i l.length with hi | hi
  · rw [List.getD_eq_getElem _ _ (by simp; omega), List.getD_eq_getElem _ _ hi]
    simp [List.getElem_take]
  · rw [List.getD_eq_default _ _ (by simp; omega), List.getD_eq_default _ _ hi]

theorem getD_drop (l : List ℤ) (s i : ℕ) (d : ℤ) :
    (l.drop s).getD i d = l.getD (s + i) d := by
  rcases Nat.lt_or_ge (s + i) l.length with hi | hi
  · rw [List.getD_eq_getElem _ _ (by simp; omega), List.getD_eq_getElem _ _ hi]
    simp [List.getElem_drop]
  · rw [List.getD_eq_default _ _ (by simp; omega), List.getD_eq_default _ _ hi]

theorem writeSeg_length (res : List ℤ) (s : ℕ) (seg : List ℤ)
    (h : s + seg.length ≤ res.length) : (writeSeg res s seg).length = res.length := by
  simp [writeSeg]
  omega

theorem writeSeg_getD_lt (res : List ℤ) (s : ℕ) (seg : List ℤ) (i : ℕ)
    (hi : i < s) (hs : s ≤ res.length) :
    (writeSeg res s seg).getD i 0 = res.getD i 0 := by
  unfold writeSeg
  rw [List.append_assoc, List.getD_append _ _ _ _ (by simp; omega), getD_take _ _ _ hi]

theorem writeSeg_getD_mid (res : List ℤ) (s : ℕ) (seg : List ℤ) (i : ℕ)
    (hs : s ≤ i) (hi : i < s + seg.length) (hn : s ≤ res.length) :
    (writeSeg res s seg).getD i 0 = seg.getD (i - s) 0 := by
  unfold writeSeg
  rw [List.append_assoc,
    List.getD_append_right _ _ _ _ (by simp; omega),
    List.getD_append _ _ _ _ (by simp; omega)]
  congr 1
  simp
  omega

theorem writeSeg_getD_ge (res : List ℤ) (s : ℕ) (seg : List ℤ) (i : ℕ)
    (hi : s + seg.length ≤ i) (hn : s ≤ res.length) :
    (writeSeg res s seg).getD i 0 = res.getD i 0 := by
  unfold writeSeg
  rw [List.append_assoc, List.getD_append_right _ _ _ _ (by simp; omega),
    List.getD_append_right _ _ _ _ (by simp; omega), getD_drop]
  congr 1
  simp
  omega

theorem addLoop_length (res : List ℤ) (offset : ℤ) (i fin : ℕ) :
    (addLoop res offset i fin).length = res.length := by
  by_cases h : i < fin
  · rw [addLoop, if_pos h, addLoop_length]
    simp
  · rw [addLoop, if_neg h]
termination_by fin - i
decreasing_by omega

theorem addLoop_getD (res : List ℤ) (offset : ℤ) (i fin j : ℕ) :
    (addLoop res offset i fin).getD j 0 =
      if i ≤ j ∧ j < fin ∧ j < res.length then res.getD j 0 + offset
      else res.getD j 0 := by
  by_cases h : i < fin
  · rw [addLoop, if_pos h, addLoop_getD]
    by_cases hj : j = i
    · subst hj
      rcases Nat.lt_or_ge j res.length with hl | hl
      · simp only [List.length_set]
        rw [if_neg (by omega), getD_set_eq _ _ hl, if_pos ⟨le_refl j, h, hl⟩]
      · simp only [List.length_set]
        rw [if_neg (by omega), if_neg (by omega),
          List.getD_eq_default _ _ (by simp; omega), List.getD_eq_default _ _ hl]
    · rw [getD_set_ne _ _ _ (by omega)]
      simp only [List.length_set]
      by_cases hc : i + 1 ≤ j ∧ j < fin ∧ j < res.length
      · rw [if_pos hc, if_pos ⟨by omega, hc.2⟩]
      · rw [if_neg hc, if_neg (by omega)]
  · rw [addLoop, if_neg h, if_neg (by omega)]
termination_by fin - i
decreasing_by omega

/- ## The chunked parallel scan (`parallelInclusiveScan`, main.cpp lines 37-92) -/

/-- The phase-1 thread body for chunk `t` (main.cpp lines 51-61): compute
`start`/`end`, return unchanged if `start >= n`, otherwise locally scan
`input[start..end)` into `result[start..end)` and record
`lastValues[t] = result[end-1]`.  The state is `(result, lastValues)`. -/
def chunkBody (input : List ℤ) (chunkSize : ℕ) (st : List ℤ × List ℤ) (t : ℕ) :
    List ℤ × List ℤ :=
  let n := input.length
  let start := chunkStart chunkSize t
  let fin := chunkEnd n chunkSize t
  if n ≤ start then st
  else
    let res := writeSeg st.1 start (inclusiveScan (slice input start fin))
    (res, st.2.set t (res.getD (fin - 1) 0))

/-- Phase 1 (main.cpp lines 47-66): `result` starts as `vector<T>(n)` (all
zeros) and `lastValues` as `vector<T>(numThreads)` (all zeros); the
`numThreads` chunk bodies write pairwise disjoint ranges, so the joined
parallel execution equals folding them in chunk order. -/
def phase1 (input : List ℤ) (T chunkSize : ℕ) : List ℤ × List ℤ :=
  (List.range T).foldl (chunkBody input chunkSize)
    (List.replicate input.length 0, List.replicate T 0)

/-- The phase-3 thread body for chunk `t` (main.cpp lines 74-84): return
unchanged if `start >= n`, otherwise add `offset = prefixSums[t-1]` to every
`result[i]`, `start <= i < end`. -/
def offsetBody (prefixSums : List ℤ) (chunkSize n : ℕ) (res : List ℤ) (t : ℕ) :
    List ℤ :=
  let start := chunkStart chunkSize t
  let fin := chunkEnd n chunkSize t
  if n ≤ start then res
  else addLoop res (prefixSums.getD (t - 1) 0) start fin

/-- The parallel path of `parallelInclusiveScan` (main.cpp lines 46-91),
reached when `numThreads > 1` and `n >= 1000`: `chunkSize = ceil(n / T)`,
phase 1 over chunks `0..T-1`, `prefixSums = inclusive_scan(lastValues)`
(phase 2, lines 69-71), then the offset bodies over chunks `1..T-1`. -/
def parallelCore (input : List ℤ) (T : ℕ) : List ℤ :=
  let n := input.length
  let chunkSize := (n + T - 1) / T
  let st := phase1 input T chunkSize
  let prefixSums := inclusiveScan st.2
  (List.range' 1 (T - 1)).foldl (offsetBody prefixSums chunkSize n) st.1

/-- `parallelInclusiveScan(input, numThreads)` (main.cpp lines 37-92).
`numThreads` is a C++ `int`, so zero and negative values are representable;
if `numThreads <= 1 || n < 1000` the function runs the sequential
`inclusive_scan` directly (lines 41-44), otherwise the parallel path. -/
def parallelInclusiveScan (input : List ℤ) (numThreads : ℤ) : List ℤ :=
  if numThreads ≤ 1 ∨ input.length < 1000 then inclusiveScan input
  else parallelCore input numThreads.toNat

/- ## The data generator (`generateRandomData`, main.cpp lines 16-26) -/

/-- `generateRandomData(size)` fills a `vector<int>(size)` with draws from
`uniform_int_distribution<int>(1, 100)` over an `mt19937` engine.  The
engine is modelled as an arbitrary entropy stream `raw : ℕ → ℕ` (one raw
value per loop iteration) and the distribution by its defining contract:
it maps each raw value uniformly onto the closed range `[1, 100]`. -/
def generateRandomData (size : ℕ) (raw : ℕ → ℕ) : List ℤ :=
  (List.range size).map (fun i => 1 + ((raw i % 100 : ℕ) : ℤ))

/- ## The sweep driver (`experiment3`, main.cpp lines 133-189) -/

/-- `DBL_MAX = numeric_limits<double>::max()`, the initial `bestTime`
(main.cpp line 151); exactly `(2 - 2^-52) * 2^1023` as a rational. -/
def dblMax : ℚ := 2 ^ 1024 - 2 ^ 971

/-- `maxK = min(32, (int)hwThreads * 4)` (main.cpp line 140). -/
def maxK (hwThreads : ℕ) : ℤ := min 32 ((hwThreads : ℤ) * 4)

/-- The state of the sweep loop: the `results` vector of `(k, time)` pairs
and the running `(bestK, bestTime)` accumulator. -/
structure SweepState where
  results : List (ℤ × ℚ)
  bestK : ℤ
  bestTime : ℚ
deriving DecidableEq, Repr

/-- One iteration of the sweep loop (main.cpp lines 156-173): measure
`time(k)`, push `(k, time)` onto `results`, and update the best accumulator
when `time < bestTime` (strict, so the first minimum wins ties). -/
def sweepStep (time : ℤ → ℚ) (st : SweepState) (k : ℤ) : SweepState :=
  let t := time k
  let results := st.results ++ [(k, t)]
  if t < st.bestTime then ⟨results, k, t⟩
  else ⟨results, st.bestK, st.bestTime⟩

/-- The sweep loop of `experiment3` (main.cpp lines 151-173): `bestTime`
starts at `DBL_MAX`, `bestK` at `1`, `results` empty; `k` runs over
`1..maxK`.  The wall-clock measurement is abstracted as `time : ℤ → ℚ`
(each `k` is measured exactly once, in increasing order). -/
def sweep (time : ℤ → ℚ) (mk : ℤ) : SweepState :=
  ((List.range mk.toNat).map (fun (i : ℕ) => (i : ℤ) + 1)).foldl (sweepStep time)
    ⟨[], 1, dblMax⟩

/- ## Slice and chunk-geometry lemmas -/

theorem getD_replicate (n i : ℕ) : (List.replicate n (0 : ℤ)).getD i 0 = 0 := by
  simp [List.getD_eq_getD_get?]

theorem slice_length (l : List ℤ) (s e : ℕ) (hs : s ≤ e) (he : e ≤ l.length) :
    (slice l s e).length = e - s := by
  simp [slice]
  omega

theorem sumTo_slice (l : List ℤ) (s e k : ℕ) (hk : k ≤ e - s) (he : e ≤ l.length) :
    sumTo (slice l s e) k = sumTo l (s + k) - sumTo l s := by
  have h1 : (slice l s e).take k = (l.drop s).take k := by
    simp only [slice, List.take_take]
    congr 1
    omega
  have h2 : l.take (s + k) = l.take s ++ (l.drop s).take k := List.take_add ..
  simp only [sumTo, h1, h2, List.sum_append]
  ring

/-- `ceil(n / T)` is at least 1 and `T` chunks of that size cover `[0, n)`. -/
theorem chunkSize_spec (n T : ℕ) (hT : 1 ≤ T) (hn : 1 ≤ n) :
    1 ≤ (n + T - 1) / T ∧ n ≤ T * ((n + T - 1) / T) := by
  have hdiv : (n + T - 1) / T = (n - 1) / T + 1 := by
    have he : n + T - 1 = (n - 1) + T := by omega
    rw [he, Nat.add_div_right _ hT]
  refine ⟨by rw [hdiv]; exact Nat.succ_le_succ (Nat.zero_le _), ?_⟩
  rw [hdiv, Nat.mul_succ]
  have hq := Nat.div_add_mod (n - 1) T
  have hm : (n - 1) % T < T := Nat.mod_lt _ hT
  generalize hA : T * ((n - 1) / T) = A at hq ⊢
  omega

/- ## What each phase computes -/

/-- The value phase 1 leaves at index `i`: the local inclusive scan of the
chunk holding `i`, i.e. the sum of `input[chunkStart..i]` where `chunkStart`
is the start of the chunk containing `i`. -/
def localVal (input : List ℤ) (cs i : ℕ) : ℤ :=
  sumTo input (i + 1) - sumTo input (i / cs * cs)

/-- The carry left in `lastValues[t]`: the sum of the elements of chunk `t`
for a non-empty chunk, and the initial `0` for a skipped chunk (both cases
are the difference of the two clamped chunk-boundary prefix sums). -/
def carryVal (input : List ℤ) (cs t : ℕ) : ℤ :=
  sumTo input (min (t * cs + cs) input.length) - sumTo input (min (t * cs) input.length)

/-- Folding the first `k` phase-1 chunk bodies. -/
def phase1Aux (input : List ℤ) (T cs k : ℕ) : List ℤ × List ℤ :=
  (List.range k).foldl (chunkBody input cs)
    (List.replicate input.length 0, List.replicate T 0)

theorem phase1_eq_aux (input : List ℤ) (T cs : ℕ) :
    phase1 input T cs = phase1Aux input T cs T := rfl

theorem phase1Aux_succ (input : List ℤ) (T cs k : ℕ) :
    phase1Aux input T cs (k + 1) = chunkBody input cs (phase1Aux input T cs k) k := by
  unfold phase1Aux
  rw [List.range_succ, List.foldl_append, List.foldl_cons, List.foldl_nil]

/-- The phase-1 loop invariant: after the first `k` chunk bodies, the result
vector holds the local scans on `[0, min(k*cs, n))` and the initial zeros
beyond, and `lastValues` holds the chunk carries for `t < k` and the initial
zeros beyond. -/
theorem phase1Aux_inv (input : List ℤ) (cs : ℕ) (hcs : 1 ≤ cs) (T k : ℕ) :
    (phase1Aux input T cs k).1.length = input.length ∧
    (phase1Aux input T cs k).2.length = T ∧
    (∀ i, i < min (k * cs) input.length →
      (phase1Aux input T cs k).1.getD i 0 = localVal input cs i) ∧
    (∀ i, min (k * cs) input.length ≤ i → (phase1Aux input T cs k).1.getD i 0 = 0) ∧
    (∀ t, t < min k T → (phase1Aux input T cs k).2.getD t 0 = carryVal input cs t) ∧
    (∀ t, min k T ≤ t → (phase1Aux input T cs k).2.getD t 0 = 0) := by
  induction k with
  | zero =>
    refine ⟨by simp [phase1Aux], by simp [phase1Aux], ?_, ?_, ?_, ?_⟩
    · intro i hi
      omega
    · intro i _
      exact getD_replicate _ _
    · intro t ht
      omega
    · intro t _
      exact getD_replicate _ _
  | succ k ih =>
    obtain ⟨h1, h2, h3, h4, h5, h6⟩ := ih
    rw [phase1Aux_succ]
    set st := phase1Aux input T cs k with hst
    set n := input.length with hn
    have hexp : (k + 1) * cs = k * cs + cs := by ring
    by_cases hskip : n ≤ chunkStart cs k
    · -- skipped chunk: start >= n, the body returns the state unchanged
      have hbody : chunkBody input cs st k = st := by
        simp only [chunkBody, ← hn]
        rw [if_pos hskip]
      rw [hbody]
      simp only [chunkStart] at hskip
      have hmin : min ((k + 1) * cs) n = min (k * cs) n := by omega
      refine ⟨h1, h2, fun i hi => h3 i (hmin ▸ hi), fun i hi => h4 i (hmin ▸ hi),
        ?_, fun t ht => h6 t (by omega)⟩
      intro t ht
      by_cases htk : t = k
      · subst htk
        rw [h6 t (by omega)]
        simp only [carryVal, ← hn]
        have e1 : min (t * cs + cs) n = n := by omega
        have e2 : min (t * cs) n = n := by omega
        rw [e1, e2, sub_self]
      · exact h5 t (by omega)
    · -- active chunk: start < n, scan the slice and record the carry
      push_neg at hskip
      set start := chunkStart cs k with hstart
      set fin := chunkEnd n cs k with hfin
      have hstart' : start = k * cs := by simp [hstart, chunkStart]
      have hfin' : fin = min (k * cs + cs) n := by
        simp [hfin, chunkEnd, chunkStart, hstart]
      rw [hstart'] at hskip
      have hse : start ≤ fin := by omega
      have hfn : fin ≤ n := by omega
      have hsf : start + 1 ≤ fin := by omega
      have hfcs : fin ≤ start + cs := by omega
      set seg := inclusiveScan (slice input start fin) with hseg
      have hseglen : seg.length = fin - start := by
        rw [hseg, inclusiveScan_length, slice_length _ _ _ hse (hn ▸ hfn)]
      have hbody : chunkBody input cs st k =
          (writeSeg st.1 start seg,
            st.2.set k ((writeSeg st.1 start seg).getD (fin - 1) 0)) := by
        simp only [chunkBody, ← hn, ← hstart, ← hfin, ← hseg]
        rw [if_neg (by omega)]
      rw [hbody]
      set res := writeSeg st.1 start seg with hres
      have hreslen : res.length = n := by
        rw [hres, writeSeg_length _ _ _ (by omega), h1]
      have hgetmid : ∀ i, start ≤ i → i < fin → res.getD i 0 =
          sumTo input (i + 1) - sumTo input start := by
        intro i hi1 hi2
        rw [hres, writeSeg_getD_mid _ _ _ _ hi1 (by omega) (by rw [h1]; omega), hseg,
          inclusiveScan_getD _ _ (by rw [slice_length _ _ _ hse (hn ▸ hfn)]; omega),
          sumTo_slice _ _ _ _ (by omega) (hn ▸ hfn)]
        congr 2
        omega
      have hcarry : res.getD (fin - 1) 0 = carryVal input cs k := by
        rw [hgetmid (fin - 1) (by omega) (by omega)]
        simp only [carryVal, ← hn]
        have e2 : min (k * cs) n = start := by omega
        rw [← hfin', e2]
        congr 2
        omega
      refine ⟨hreslen, by simpa using h2, ?_, ?_, ?_, ?_⟩
      · -- result values on [0, min((k+1)cs, n))
        intro i hi
        rw [hexp] at hi
        by_cases hilt : i < start
        · rw [hres, writeSeg_getD_lt _ _ _ _ hilt (by rw [h1]; omega)]
          exact h3 i (by omega)
        · push_neg at hilt
          have hif : i < fin := by omega
          rw [hgetmid i hilt hif]
          have hdiv : i / cs = k := Nat.div_eq_of_lt_le (by omega) (by omega)
          simp only [localVal, hdiv, ← hn]
          rw [hstart']
      · -- untouched zeros beyond min((k+1)cs, n)
        intro i hi
        rw [hexp] at hi
        have hfi : fin ≤ i := by omega
        rw [hres, writeSeg_getD_ge _ _ _ _ (by omega) (by rw [h1]; omega)]
        exact h4 i (by omega)
      · -- carries for t < min (k+1) T
        intro t ht
        by_cases htk : t = k
        · subst htk
          rw [getD_set_eq _ _ (by rw [h2]; omega), hcarry]
        · rw [getD_set_ne _ _ _ (Ne.symm htk)]
          exact h5 t (by omega)
      · -- zeros beyond min (k+1) T
        intro t ht
        by_cases htk : t = k
        · subst htk
          rw [List.getD_eq_default _ _ (by simp only [List.length_set, h2]; omega)]
        · rw [getD_set_ne _ _ _ (Ne.symm htk)]
          exact h6 t (by omega)

/- ## Phase 2: the scan of the carry list telescopes -/

theorem sumTo_eq_sum (l : List ℤ) (k : ℕ) (hk : k ≤ l.length) :
    sumTo l k = ∑ s in Finset.range k, l.getD s 0 := by
  induction k with
  | zero => simp [sumTo]
  | succ k ih =>
    rw [sumTo_succ _ _ (by omega), Finset.sum_range_succ, ih (by omega)]

theorem carry_telescope (input : List ℤ) (cs m : ℕ) :
    ∑ s in Finset.range m, carryVal input cs s =
      sumTo input (min (m * cs) input.length) := by
  have hstep : ∀ s, carryVal input cs s =
      sumTo input (min ((s + 1) * cs) input.length) -
        sumTo input (min (s * cs) input.length) := by
    intro s
    have : (s + 1) * cs = s * cs + cs := by ring
    rw [carryVal, this]
  calc ∑ s in Finset.range m, carryVal input cs s
      = ∑ s in Finset.range m,
          (sumTo input (min ((s + 1) * cs) input.length) -
            sumTo input (min (s * cs) input.length)) :=
        Finset.sum_congr rfl (fun s _ => hstep s)
    _ = sumTo input (min (m * cs) input.length) -
          sumTo input (min (0 * cs) input.length) :=
        Finset.sum_range_sub (fun s => sumTo input (min (s * cs) input.length)) m
    _ = sumTo input (min (m * cs) input.length) := by
        simp [sumTo_zero]

/-- `prefixSums[t]` (the carry-prefix list of main.cpp lines 69-71) is the
total input sum up to the end of chunk `t`. -/
theorem prefixSums_getD (input : List ℤ) (T cs : ℕ) (hcs : 1 ≤ cs)
    (t : ℕ) (ht : t < T) :
    (inclusiveScan (phase1 input T cs).2).getD t 0 =
      sumTo input (min ((t + 1) * cs) input.length) := by
  obtain ⟨_, h2, _, _, h5, _⟩ := phase1Aux_inv input cs hcs T T
  rw [phase1_eq_aux]
  rw [inclusiveScan_getD _ _ (by rw [h2]; omega),
    sumTo_eq_sum _ _ (by rw [h2]; omega)]
  have : ∀ s ∈ Finset.range (t + 1),
      (phase1Aux input T cs T).2.getD s 0 = carryVal input cs s := by
    intro s hs
    simp only [Finset.mem_range] at hs
    exact h5 s (by omega)
  rw [Finset.sum_congr rfl this, carry_telescope]

/- ## Phase 3: applying the carry offsets -/

/-- Folding the phase-3 offset bodies of chunks `1..j`. -/
def phase3Aux (prefixSums : List ℤ) (cs n : ℕ) (res : List ℤ) (j : ℕ) : List ℤ :=
  (List.range' 1 j).foldl (offsetBody prefixSums cs n) res

theorem phase3Aux_succ (prefixSums : List ℤ) (cs n : ℕ) (res : List ℤ) (j : ℕ) :
    phase3Aux prefixSums cs n res (j + 1) =
      offsetBody prefixSums cs n (phase3Aux prefixSums cs n res j) (j + 1) := by
  unfold phase3Aux
  have h : 1 + 1 * j = j + 1 := by omega
  rw [List.range'_concat, h, List.foldl_append, List.foldl_cons, List.foldl_nil]

theorem parallelCore_eq_phase3Aux (input : List ℤ) (T : ℕ) :
    parallelCore input T =
      phase3Aux (inclusiveScan (phase1 input T ((input.length + T - 1) / T)).2)
        ((input.length + T - 1) / T) input.length
        (phase1 input T ((input.length + T - 1) / T)).1 (T - 1) := rfl

/-- The phase-3 loop invariant: after the offset bodies of chunks `1..j`,
the result holds the global prefix sums on `[0, min((j+1)*cs, n))` and still
the phase-1 local scans beyond. -/
theorem phase3Aux_inv (input : List ℤ) (T cs : ℕ) (hcs : 1 ≤ cs)
    (hcov : input.length ≤ T * cs) (j : ℕ) (hj : j < T) :
    (phase3Aux (inclusiveScan (phase1 input T cs).2) cs input.length
        (phase1 input T cs).1 j).length = input.length ∧
    (∀ i, i < min ((j + 1) * cs) input.length →
      (phase3Aux (inclusiveScan (phase1 input T cs).2) cs input.length
        (phase1 input T cs).1 j).getD i 0 = sumTo input (i + 1)) ∧
    (∀ i, i < input.length → (j + 1) * cs ≤ i →
      (phase3Aux (inclusiveScan (phase1 input T cs).2) cs input.length
        (phase1 input T cs).1 j).getD i 0 = localVal input cs i) := by
  set n := input.length with hn
  set ps := inclusiveScan (phase1 input T cs).2 with hps
  obtain ⟨p1, _, p3, _, _, _⟩ := phase1Aux_inv input cs hcs T T
  rw [← phase1_eq_aux] at p1 p3
  induction j with
  | zero =>
    refine ⟨by simpa [phase3Aux] using p1, ?_, ?_⟩
    · intro i hi
      have hloc := p3 i (by omega)
      simp only [phase3Aux, List.range'_zero, List.foldl_nil]
      rw [hloc, localVal, Nat.div_eq_of_lt (by omega)]
      simp [sumTo_zero]
    · intro i hi1 hi2
      simp only [phase3Aux, List.range'_zero, List.foldl_nil]
      exact p3 i (by omega)
  | succ j ih =>
    obtain ⟨ih1, ih2, ih3⟩ := ih (by omega)
    rw [phase3Aux_succ]
    set r := phase3Aux ps cs n (phase1 input T cs).1 j with hr
    have hexp1 : (j + 1) * cs = j * cs + cs := by ring
    have hexp2 : (j + 1 + 1) * cs = j * cs + cs + cs := by ring
    by_cases hskip : n ≤ chunkStart cs (j + 1)
    · have hbody : offsetBody ps cs n r (j + 1) = r := by
        simp only [offsetBody, ← hn]
        rw [if_pos hskip]
      rw [hbody]
      simp only [chunkStart, hexp1] at hskip
      refine ⟨ih1, ?_, ?_⟩
      · intro i hi
        rw [hexp2] at hi
        exact ih2 i (by omega)
      · intro i hi1 hi2
        rw [hexp2] at hi2
        exact ih3 i hi1 (by omega)
    · push_neg at hskip
      simp only [chunkStart, hexp1] at hskip
      have hbody : offsetBody ps cs n r (j + 1) =
          addLoop r (ps.getD j 0) (chunkStart cs (j + 1)) (chunkEnd n cs (j + 1)) := by
        simp only [offsetBody, ← hn, Nat.add_sub_cancel]
        rw [if_neg (by simp only [chunkStart, hexp1]; omega)]
      rw [hbody]
      have hoffset : ps.getD j 0 = sumTo input ((j + 1) * cs) := by
        rw [hps, prefixSums_getD input T cs hcs j (by omega), ← hn]
        congr 1
        rw [hexp1]
        omega
      have hstart : chunkStart cs (j + 1) = j * cs + cs := by
        simp [chunkStart, hexp1]
      have hfin : chunkEnd n cs (j + 1) = min (j * cs + cs + cs) n := by
        simp [chunkEnd, hstart]
      refine ⟨by rw [addLoop_length, ih1], ?_, ?_⟩
      · intro i hi
        rw [hexp2] at hi
        rw [addLoop_getD, hstart, hfin, ih1]
        by_cases hilt : i < j * cs + cs
        · rw [if_neg (by omega)]
          exact ih2 i (by omega)
        · rw [if_pos (by omega), ih3 i (by omega) (by omega), hoffset, localVal]
          have hdiv : i / cs = j + 1 := Nat.div_eq_of_lt_le (by omega) (by omega)
          rw [hdiv, hexp1]
          ring
      · intro i hi1 hi2
        rw [hexp2] at hi2
        rw [addLoop_getD, hstart, hfin, ih1, if_neg (by omega)]
        exact ih3 i hi1 (by omega)

/-- The parallel path computes the inclusive scan (the main correctness
fact; used by several claims below). -/
theorem parallelCore_eq_inclusiveScan (input : List ℤ) (T : ℕ) (hT : 1 ≤ T)
    (hn : 1 ≤ input.length) : parallelCore input T = inclusiveScan input := by
  obtain ⟨hcs, hcov⟩ := chunkSize_spec input.length T hT hn
  obtain ⟨q1, q2, _⟩ :=
    phase3Aux_inv input T ((input.length + T - 1) / T) hcs hcov (T - 1) (by omega)
  rw [parallelCore_eq_phase3Aux]
  have hTT : (T - 1 + 1) * ((input.length + T - 1) / T) =
      T * ((input.length + T - 1) / T) := by
    congr 1
    omega
  apply List.ext_get
  · rw [q1, inclusiveScan_length]
  · intro i h1 h2
    have hi : i < input.length := by
      rw [q1] at h1
      exact h1
    rw [List.get_eq_getElem, List.get_eq_getElem, ← List.getD_eq_getElem _ 0 h1,
      ← List.getD_eq_getElem _ 0 h2]
    rw [q2 i (by rw [hTT]; omega), inclusiveScan_getD _ _ hi]

/-- `parallelInclusiveScan` agrees with the sequential scan for every thread
count, including zero and negative requests (which take the fallback). -/
theorem parallelInclusiveScan_eq (input : List ℤ) (numThreads : ℤ) :
    parallelInclusiveScan input numThreads = inclusiveScan input := by
  unfold parallelInclusiveScan
  split
  · rfl
  · rename_i h
    push_neg at h
    exact parallelCore_eq_inclusiveScan input numThreads.toNat (by omega) (by omega)

/-- With an empty input every phase-1 chunk body is skipped. -/
theorem foldl_chunkBody_empty (input : List ℤ) (cs : ℕ) (h : input.length = 0)
    (l : List ℕ) (st : List ℤ × List ℤ) :
    l.foldl (chunkBody input cs) st = st := by
  induction l generalizing st with
  | nil => rfl
  | cons t l ih =>
    rw [List.foldl_cons]
    have : chunkBody input cs st t = st := by
      simp only [chunkBody, h]
      rw [if_pos (Nat.zero_le _)]
    rw [this, ih]

/-- A chunk whose start index is at or beyond `n` leaves its `lastValues`
slot at the zero it was initialized with. -/
theorem lastValues_getD_zero (input : List ℤ) (T cs t : ℕ) (hcs : 1 ≤ cs)
    (ht : input.length ≤ chunkStart cs t) :
    (phase1 input T cs).2.getD t 0 = 0 := by
  obtain ⟨_, _, _, _, h5, h6⟩ := phase1Aux_inv input cs hcs T T
  rw [phase1_eq_aux]
  by_cases htT : t < T
  · rw [h5 t (by omega)]
    simp only [chunkStart] at ht
    simp only [carryVal]
    have e1 : min (t * cs + cs) input.length = input.length := by omega
    have e2 : min (t * cs) input.length = input.length := by omega
    rw [e1, e2, sub_self]
  · exact h6 t (by omega)

/- ## Frame property of phase 3 -/

/-- An offset body for a chunk `t ≥ 1` never touches an index `i < cs`. -/
theorem offsetBody_getD_small (ps : List ℤ) (cs n : ℕ) (res : List ℤ) (t i : ℕ)
    (ht : 1 ≤ t) (hi : i < cs) :
    (offsetBody ps cs n res t).getD i 0 = res.getD i 0 := by
  have hcs : cs ≤ t * cs := Nat.le_mul_of_pos_left cs ht
  simp only [offsetBody]
  split
  · rfl
  · rw [addLoop_getD, if_neg (by simp only [chunkStart]; omega)]

theorem foldl_offsetBody_small (ps : List ℤ) (cs n i : ℕ) (hi : i < cs)
    (l : List ℕ) (hl : ∀ t ∈ l, 1 ≤ t) (res : List ℤ) :
    (l.foldl (offsetBody ps cs n) res).getD i 0 = res.getD i 0 := by
  induction l generalizing res with
  | nil => rfl
  | cons t l ih =>
    rw [List.foldl_cons, ih (fun u hu => hl u (List.mem_cons_of_mem _ hu)),
      offsetBody_getD_small _ _ _ _ _ _ (hl t (List.mem_cons_self _ _)) hi]

/- ## Facts about the data generator -/

theorem generateRandomData_length (size : ℕ) (raw : ℕ → ℕ) :
    (generateRandomData size raw).length = size := by
  simp [generateRandomData]

theorem generateRandomData_mem (size : ℕ) (raw : ℕ → ℕ) (x : ℤ)
    (hx : x ∈ generateRandomData size raw) : 1 ≤ x ∧ x ≤ 100 := by
  simp only [generateRandomData, List.mem_map] at hx
  obtain ⟨i, _, rfl⟩ := hx
  have h1 : raw i % 100 < 100 := Nat.mod_lt _ (by omega)
  constructor
  · have : (0 : ℤ) ≤ ((raw i % 100 : ℕ) : ℤ) := Int.ofNat_nonneg _
    omega
  · have : ((raw i % 100 : ℕ) : ℤ) ≤ 99 := by exact_mod_cast Nat.le_of_lt_succ h1
    omega

theorem sumTo_le_of_bound (l : List ℤ) (k : ℕ) (hb : ∀ x ∈ l, x ≤ 100) :
    sumTo l k ≤ 100 * k := by
  have h1 : ∀ x ∈ l.take k, x ≤ (100 : ℤ) := fun x hx => hb x (List.mem_of_mem_take hx)
  have h2 := List.sum_le_card_nsmul (l.take k) 100 h1
  have h3 : (l.take k).length ≤ k := by simp
  calc sumTo l k ≤ (l.take k).length • (100 : ℤ) := h2
    _ = ((l.take k).length : ℤ) * 100 := by rw [nsmul_eq_mul]
    _ ≤ (k : ℤ) * 100 := by
        apply mul_le_mul_of_nonneg_right _ (by norm_num)
        exact_mod_cast h3
    _ = 100 * k := by ring

/- ## Facts about the sweep driver -/

theorem maxK_nonneg (hw : ℕ) : 0 ≤ maxK hw := by
  unfold maxK
  positivity

/-- The first `j` sweep iterations (`k = 1..j`). -/
def sweepAux (time : ℤ → ℚ) (j : ℕ) : SweepState :=
  ((List.range j).map (fun (i : ℕ) => (i : ℤ) + 1)).foldl (sweepStep time)
    ⟨[], 1, dblMax⟩

theorem sweep_eq_aux (time : ℤ → ℚ) (mk : ℤ) :
    sweep time mk = sweepAux time mk.toNat := rfl

theorem sweepAux_succ (time : ℤ → ℚ) (j : ℕ) :
    sweepAux time (j + 1) = sweepStep time (sweepAux time j) ((j : ℤ) + 1) := by
  unfold sweepAux
  rw [List.range_succ, List.map_append, List.foldl_append, List.map_singleton,
    List.foldl_cons, List.foldl_nil]

/-- The sweep-loop invariant: after the iterations `k = 1..j` the `results`
vector holds exactly the pairs `(k, time k)` in order, and the accumulator
holds the first-occurrence minimum of the recorded times (for `j = 0` it
still holds the initial `(1, DBL_MAX)`). -/
theorem sweepAux_inv (time : ℤ → ℚ) (j : ℕ)
    (htime : ∀ k : ℤ, 1 ≤ k → k ≤ (j : ℤ) → time k < dblMax) :
    (sweepAux time j).results =
      (List.range j).map (fun (i : ℕ) => ((i : ℤ) + 1, time ((i : ℤ) + 1))) ∧
    1 ≤ (sweepAux time j).bestK ∧
    (j = 0 → (sweepAux time j).bestK = 1 ∧ (sweepAux time j).bestTime = dblMax) ∧
    (1 ≤ j → (sweepAux time j).bestK ≤ (j : ℤ) ∧
      time (sweepAux time j).bestK = (sweepAux time j).bestTime ∧
      (∀ k : ℤ, 1 ≤ k → k ≤ (j : ℤ) → (sweepAux time j).bestTime ≤ time k) ∧
      (∀ k : ℤ, 1 ≤ k → k < (sweepAux time j).bestK →
        (sweepAux time j).bestTime < time k)) := by
  induction j with
  | zero =>
    refine ⟨by simp [sweepAux], by simp [sweepAux], fun _ => ⟨rfl, rfl⟩, fun h => by omega⟩
  | succ j ih =>
    obtain ⟨ih1, ih2, ih3, ih4⟩ := ih (fun k hk1 hk2 => htime k hk1 (by omega))
    rw [sweepAux_succ]
    set st := sweepAux time j with hst
    have hmap : (List.range (j + 1)).map
          (fun (i : ℕ) => ((i : ℤ) + 1, time ((i : ℤ) + 1))) =
        (List.range j).map (fun (i : ℕ) => ((i : ℤ) + 1, time ((i : ℤ) + 1))) ++
          [((j : ℤ) + 1, time ((j : ℤ) + 1))] := by
      rw [List.range_succ, List.map_append, List.map_singleton]
    by_cases hlt : time ((j : ℤ) + 1) < st.bestTime
    · have e1 : (sweepStep time st ((j : ℤ) + 1)).results =
          st.results ++ [((j : ℤ) + 1, time ((j : ℤ) + 1))] := by
        simp only [sweepStep]
        rw [if_pos hlt]
      have e2 : (sweepStep time st ((j : ℤ) + 1)).bestK = (j : ℤ) + 1 := by
        simp only [sweepStep]
        rw [if_pos hlt]
      have e3 : (sweepStep time st ((j : ℤ) + 1)).bestTime = time ((j : ℤ) + 1) := by
        simp only [sweepStep]
        rw [if_pos hlt]
      refine ⟨by rw [e1, ih1, hmap], by rw [e2]; omega, fun h => by omega,
        fun _ => ⟨by rw [e2]; omega, by rw [e2, e3], ?_, ?_⟩⟩
      · intro k hk1 hk2
        rw [e3]
        by_cases hkj : k ≤ (j : ℤ)
        · rcases Nat.eq_zero_or_pos j with hj | hj
          · omega
          · exact le_of_lt (lt_of_lt_of_le hlt ((ih4 hj).2.2.1 k hk1 hkj))
        · have hk : k = (j : ℤ) + 1 := by omega
          rw [hk]
      · intro k hk1 hk2
        rw [e2] at hk2
        rw [e3]
        have hkj : k ≤ (j : ℤ) := by omega
        rcases Nat.eq_zero_or_pos j with hj | hj
        · omega
        · exact lt_of_lt_of_le hlt ((ih4 hj).2.2.1 k hk1 hkj)
    · have e1 : (sweepStep time st ((j : ℤ) + 1)).results =
          st.results ++ [((j : ℤ) + 1, time ((j : ℤ) + 1))] := by
        simp only [sweepStep]
        rw [if_neg hlt]
      have e2 : (sweepStep time st ((j : ℤ) + 1)).bestK = st.bestK := by
        simp only [sweepStep]
        rw [if_neg hlt]
      have e3 : (sweepStep time st ((j : ℤ) + 1)).bestTime = st.bestTime := by
        simp only [sweepStep]
        rw [if_neg hlt]
      have hj : 1 ≤ j := by
        by_contra hj0
        have hj0' : j = 0 := by omega
        have hd := (ih3 hj0').2
        exact absurd (hd ▸ htime ((j : ℤ) + 1) (by omega) (by omega)) hlt
      obtain ⟨hb1, hb2, hb3, hb4⟩ := ih4 hj
      refine ⟨by rw [e1, ih1, hmap], by rw [e2]; omega, fun h => by omega,
        fun _ => ⟨by rw [e2]; omega, by rw [e2, e3]; exact hb2, ?_, ?_⟩⟩
      · intro k hk1 hk2
        rw [e3]
        by_cases hkj : k ≤ (j : ℤ)
        · exact hb3 k hk1 hkj
        · have hk : k = (j : ℤ) + 1 := by omega
          rw [hk]
          exact not_lt.mp hlt
      · intro k hk1 hk2
        rw [e2] at hk2
        rw [e3]
        exact hb4 k hk1 hk2

/- ## The claims -/

/-- C1: for every finite integer sequence and every thread count `T ≥ 1`
(including `T` far exceeding the input length), `parallelInclusiveScan`
returns exactly the single-threaded reference inclusive scan; in particular
thread counts `1` and `1000` give the same sequence. -/
theorem claim1_parallel_matches_sequential (input : List ℤ) (T : ℤ) (hT : 1 ≤ T) :
    parallelInclusiveScan input T = inclusiveScan input ∧
    parallelInclusiveScan input 1 = parallelInclusiveScan input 1000 := by
  refine ⟨parallelInclusiveScan_eq input T, ?_⟩
  rw [parallelInclusiveScan_eq, parallelInclusiveScan_eq]

theorem claim1_witness :
    (1 : ℤ) ≤ 7 ∧
    (parallelInclusiveScan [1, 2, 3] 7 = inclusiveScan [1, 2, 3] ∧
      parallelInclusiveScan [1, 2, 3] 1 = parallelInclusiveScan [1, 2, 3] 1000) :=
  ⟨by decide, claim1_parallel_matches_sequential [1, 2, 3] 7 (by decide)⟩

/-- C2: whenever the requested thread count is `≤ 1` (including `0` and
negative values) or the input length is below `1000`, the function takes the
sequential fallback branch and returns the single-threaded scan; the guard
fires before the chunk-size division, so a non-positive count never reaches
it. -/
theorem claim2_fallback_sequential (input : List ℤ) (T : ℤ)
    (h : T ≤ 1 ∨ input.length < 1000) :
    parallelInclusiveScan input T = inclusiveScan input := by
  unfold parallelInclusiveScan
  rw [if_pos h]

theorem claim2_witness :
    ((0 : ℤ) ≤ 1 ∨ ([5, -2] : List ℤ).length < 1000) ∧
    parallelInclusiveScan [5, -2] 0 = inclusiveScan [5, -2] :=
  ⟨by decide, claim2_fallback_sequential [5, -2] 0 (by decide)⟩

/-- C3: when `T` exceeds the input length, every chunk whose start index
`t * chunkSize` is at or beyond `n` leaves its carry slot `lastValues[t]` at
the zero it was initialized with, so the scan of the carry list is not
corrupted; and `parallelInclusiveScan [a,b,c] 10` equals the sequential
scan of `[a,b,c]`. -/
theorem claim3_empty_chunks_keep_zero (input : List ℤ) (T t : ℕ) (a b c : ℤ)
    (hT : input.length < T)
    (ht : input.length ≤ chunkStart ((input.length + T - 1) / T) t) :
    (phase1 input T ((input.length + T - 1) / T)).2.getD t 0 = 0 ∧
    parallelInclusiveScan [a, b, c] 10 = inclusiveScan [a, b, c] := by
  constructor
  · by_cases hn : input.length = 0
    · unfold phase1
      rw [foldl_chunkBody_empty _ _ hn]
      exact getD_replicate _ _
    · obtain ⟨hcs, _⟩ := chunkSize_spec input.length T (by omega) (by omega)
      exact lastValues_getD_zero _ _ _ _ hcs ht
  · exact parallelInclusiveScan_eq _ _

theorem claim3_witness :
    (([4, 5, 6] : List ℤ).length < 10 ∧
      ([4, 5, 6] : List ℤ).length ≤
        chunkStart ((([4, 5, 6] : List ℤ).length + 10 - 1) / 10) 7) ∧
    ((phase1 [4, 5, 6] 10 ((([4, 5, 6] : List ℤ).length + 10 - 1) / 10)).2.getD 7 0 = 0 ∧
      parallelInclusiveScan [1, 2, 3] 10 = inclusiveScan [1, 2, 3]) :=
  ⟨⟨by decide, by decide⟩,
    claim3_empty_chunks_keep_zero [4, 5, 6] 10 7 1 2 3 (by decide) (by decide)⟩

/-- C4: scanning the empty sequence returns the empty sequence and scanning
a single-element sequence `[x]` returns `[x]`, for every thread count
(both cases take the small-input fallback, so no chunk work and no division
is performed). -/
theorem claim4_empty_and_singleton :
    (∀ T : ℤ, parallelInclusiveScan [] T = []) ∧
    (∀ (x : ℤ) (T : ℤ), parallelInclusiveScan [x] T = [x]) := by
  constructor
  · intro T
    rw [parallelInclusiveScan_eq]
    rfl
  · intro x T
    rw [parallelInclusiveScan_eq]
    simp [inclusiveScan, scanAux]

/-- C5: in the parallel path (`T ≥ 2`, `n ≥ 1000`), with
`chunkSize = ceil(n / T)`, every index of `[0, n)` lies in exactly one chunk
range `[t*chunkSize, min(t*chunkSize + chunkSize, n))` with `t < T`
(disjoint exact cover); each chunk ends where the next one starts (clipped
at `n`); and a chunk starting at or beyond `n` is empty. -/
theorem claim5_chunks_partition (n T i : ℕ) (hT : 2 ≤ T) (hn : 1000 ≤ n) :
    (i < n → ∃! t : ℕ, t < T ∧ chunkStart ((n + T - 1) / T) t ≤ i ∧
      i < chunkEnd n ((n + T - 1) / T) t) ∧
    (∀ t : ℕ, chunkEnd n ((n + T - 1) / T) t =
      min (chunkStart ((n + T - 1) / T) (t + 1)) n) ∧
    (∀ t : ℕ, n ≤ chunkStart ((n + T - 1) / T) t →
      chunkEnd n ((n + T - 1) / T) t ≤ chunkStart ((n + T - 1) / T) t) := by
  obtain ⟨hcs, hcov⟩ := chunkSize_spec n T (by omega) (by omega)
  set cs := (n + T - 1) / T with hcs'
  refine ⟨?_, ?_, ?_⟩
  · intro hi
    have hmod := Nat.div_add_mod i cs
    rw [Nat.mul_comm] at hmod
    have hm : i % cs < cs := Nat.mod_lt _ (by omega)
    have hdivT : i / cs < T := by
      have hlt : i < cs * T := by rw [Nat.mul_comm]; omega
      exact Nat.div_lt_of_lt_mul hlt
    refine ⟨i / cs, ⟨hdivT, ?_, ?_⟩, ?_⟩
    · simp only [chunkStart]
      omega
    · simp only [chunkEnd, chunkStart]
      omega
    · rintro t' ⟨ht'T, hts, hte⟩
      simp only [chunkStart, chunkEnd] at hts hte
      have hexp : (t' + 1) * cs = t' * cs + cs := by ring
      exact (Nat.div_eq_of_lt_le hts (by omega)).symm
  · intro t
    simp only [chunkEnd, chunkStart]
    congr 1
    ring
  · intro t
    simp only [chunkEnd, chunkStart]
    omega

theorem claim5_witness :
    (2 ≤ 3 ∧ 1000 ≤ 1000) ∧
    ((999 < 1000 → ∃! t : ℕ, t < 3 ∧ chunkStart ((1000 + 3 - 1) / 3) t ≤ 999 ∧
        999 < chunkEnd 1000 ((1000 + 3 - 1) / 3) t) ∧
      (∀ t : ℕ, chunkEnd 1000 ((1000 + 3 - 1) / 3) t =
        min (chunkStart ((1000 + 3 - 1) / 3) (t + 1)) 1000) ∧
      (∀ t : ℕ, 1000 ≤ chunkStart ((1000 + 3 - 1) / 3) t →
        chunkEnd 1000 ((1000 + 3 - 1) / 3) t ≤ chunkStart ((1000 + 3 - 1) / 3) t)) :=
  ⟨⟨by decide, by decide⟩, claim5_chunks_partition 1000 3 999 (by decide) (by decide)⟩

/-- C6: the phase-3 offset application only touches chunks `t ≥ 1`; every
output element of chunk 0, i.e. at an index below `min(chunkSize, n)`, is
exactly what phase 1 wrote there. -/
theorem claim6_chunk_zero_untouched (input : List ℤ) (T i : ℕ)
    (hi : i < min ((input.length + T - 1) / T) input.length) :
    (parallelCore input T).getD i 0 =
      (phase1 input T ((input.length + T - 1) / T)).1.getD i 0 := by
  rw [parallelCore_eq_phase3Aux]
  unfold phase3Aux
  apply foldl_offsetBody_small _ _ _ _ (by omega)
  intro t htmem
  have hmem := List.mem_range'_1.mp htmem
  omega

theorem claim6_witness :
    1 < min ((([1, 2, 3, 4] : List ℤ).length + 2 - 1) / 2) ([1, 2, 3, 4] : List ℤ).length ∧
    (parallelCore [1, 2, 3, 4] 2).getD 1 0 =
      (phase1 [1, 2, 3, 4] 2 ((([1, 2, 3, 4] : List ℤ).length + 2 - 1) / 2)).1.getD 1 0 :=
  ⟨by decide, claim6_chunk_zero_untouched [1, 2, 3, 4] 2 1 (by decide)⟩

/-- C7: for every input and thread count `T ≥ 1` the output satisfies
`output[0] = input[0]` and `output[i+1] - output[i] = input[i+1]`; when all
input elements are non-negative the output is non-decreasing. -/
theorem claim7_successive_differences (input : List ℤ) (T : ℤ) (hT : 1 ≤ T) :
    (1 ≤ input.length → (parallelInclusiveScan input T).getD 0 0 = input.getD 0 0) ∧
    (∀ i : ℕ, i + 1 < input.length →
      (parallelInclusiveScan input T).getD (i + 1) 0 -
        (parallelInclusiveScan input T).getD i 0 = input.getD (i + 1) 0) ∧
    ((∀ x ∈ input, 0 ≤ x) → ∀ i : ℕ, i + 1 < input.length →
      (parallelInclusiveScan input T).getD i 0 ≤
        (parallelInclusiveScan input T).getD (i + 1) 0) := by
  rw [parallelInclusiveScan_eq]
  refine ⟨?_, ?_, ?_⟩
  · intro h
    rw [inclusiveScan_getD _ _ (by omega), sumTo_succ _ _ (by omega), sumTo_zero,
      zero_add]
  · intro i hi
    rw [inclusiveScan_getD _ _ (by omega), inclusiveScan_getD _ _ (by omega),
      sumTo_succ _ _ (by omega)]
    ring
  · intro hpos i hi
    rw [inclusiveScan_getD _ _ (by omega), inclusiveScan_getD _ _ (by omega)]
    have hstep := sumTo_succ input (i + 1) (by omega)
    have hx : 0 ≤ input.getD (i + 1) 0 := by
      apply hpos
      rw [List.getD_eq_getElem _ _ (by omega)]
      exact List.getElem_mem _
    omega

theorem claim7_witness :
    (1 : ℤ) ≤ 1 ∧
    ((1 ≤ ([3, -1] : List ℤ).length →
        (parallelInclusiveScan [3, -1] 1).getD 0 0 = ([3, -1] : List ℤ).getD 0 0) ∧
      (∀ i : ℕ, i + 1 < ([3, -1] : List ℤ).length →
        (parallelInclusiveScan [3, -1] 1).getD (i + 1) 0 -
          (parallelInclusiveScan [3, -1] 1).getD i 0 = ([3, -1] : List ℤ).getD (i + 1) 0) ∧
      ((∀ x ∈ ([3, -1] : List ℤ), 0 ≤ x) → ∀ i : ℕ, i + 1 < ([3, -1] : List ℤ).length →
        (parallelInclusiveScan [3, -1] 1).getD i 0 ≤
          (parallelInclusiveScan [3, -1] 1).getD (i + 1) 0)) :=
  ⟨by decide, claim7_successive_differences [3, -1] 1 (by decide)⟩

/-- C8: the sweep driver sets `maxK = min(32, hwThreads * 4)`, records
exactly one `(K, time)` pair per `K` in `1..maxK` in increasing order, and
(as long as at least one K is measured and the measured times are genuine
finite values below `DBL_MAX`) reports as `bestK`/`bestTime` the thread
count and time of the minimum recorded time, the first occurrence winning
ties. -/
theorem claim8_sweep_records_and_best (hw : ℕ) (time : ℤ → ℚ)
    (hfin : ∀ k : ℤ, 1 ≤ k → k ≤ maxK hw → time k < dblMax) :
    maxK hw = min 32 ((hw : ℤ) * 4) ∧
    (sweep time (maxK hw)).results =
      (List.range (maxK hw).toNat).map
        (fun (i : ℕ) => ((i : ℤ) + 1, time ((i : ℤ) + 1))) ∧
    (1 ≤ maxK hw →
      1 ≤ (sweep time (maxK hw)).bestK ∧
      (sweep time (maxK hw)).bestK ≤ maxK hw ∧
      time (sweep time (maxK hw)).bestK = (sweep time (maxK hw)).bestTime ∧
      (∀ k : ℤ, 1 ≤ k → k ≤ maxK hw → (sweep time (maxK hw)).bestTime ≤ time k) ∧
      (∀ k : ℤ, 1 ≤ k → k < (sweep time (maxK hw)).bestK →
        (sweep time (maxK hw)).bestTime < time k)) := by
  have hnn : 0 ≤ maxK hw := maxK_nonneg hw
  obtain ⟨s1, s2, s3, s4⟩ := sweepAux_inv time (maxK hw).toNat
    (fun k hk1 hk2 => hfin k hk1 (by omega))
  rw [sweep_eq_aux]
  refine ⟨rfl, s1, fun hmk => ?_⟩
  obtain ⟨b1, b2, b3, b4⟩ := s4 (by omega)
  exact ⟨s2, by omega, b2, fun k hk1 hk2 => b3 k hk1 (by omega), b4⟩

theorem claim8_witness :
    (∀ k : ℤ, 1 ≤ k → k ≤ maxK 1 → (fun (_ : ℤ) => (0 : ℚ)) k < dblMax) ∧
    (maxK 1 = min 32 ((1 : ℕ) * 4 : ℤ) ∧
      (sweep (fun (_ : ℤ) => (0 : ℚ)) (maxK 1)).results =
        (List.range (maxK 1).toNat).map
          (fun (i : ℕ) => ((i : ℤ) + 1, (fun (_ : ℤ) => (0 : ℚ)) ((i : ℤ) + 1))) ∧
      (1 ≤ maxK 1 →
        1 ≤ (sweep (fun (_ : ℤ) => (0 : ℚ)) (maxK 1)).bestK ∧
        (sweep (fun (_ : ℤ) => (0 : ℚ)) (maxK 1)).bestK ≤ maxK 1 ∧
        (fun (_ : ℤ) => (0 : ℚ)) (sweep (fun (_ : ℤ) => (0 : ℚ)) (maxK 1)).bestK =
          (sweep (fun (_ : ℤ) => (0 : ℚ)) (maxK 1)).bestTime ∧
        (∀ k : ℤ, 1 ≤ k → k ≤ maxK 1 →
          (sweep (fun (_ : ℤ) => (0 : ℚ)) (maxK 1)).bestTime ≤
            (fun (_ : ℤ) => (0 : ℚ)) k) ∧
        (∀ k : ℤ, 1 ≤ k → k < (sweep (fun (_ : ℤ) => (0 : ℚ)) (maxK 1)).bestK →
          (sweep (fun (_ : ℤ) => (0 : ℚ)) (maxK 1)).bestTime <
            (fun (_ : ℤ) => (0 : ℚ)) k))) :=
  ⟨fun k h1 h2 => by
      show (0 : ℚ) < dblMax
      norm_num [dblMax],
    claim8_sweep_records_and_best 1 (fun (_ : ℤ) => (0 : ℚ)) (fun k h1 h2 => by
      show (0 : ℚ) < dblMax
      norm_num [dblMax])⟩

/-- C9: `generateRandomData(size)` returns exactly `size` elements, each in
the closed interval `[1, 100]`; hence for the benchmarked sizes (at most
10,000,000 elements) every inclusive prefix sum is at most `10^9`, which
fits in a 32-bit signed integer. -/
theorem claim9_data_bounded (size : ℕ) (raw : ℕ → ℕ) (hsize : size ≤ 10000000) :
    (generateRandomData size raw).length = size ∧
    (∀ x ∈ generateRandomData size raw, 1 ≤ x ∧ x ≤ 100) ∧
    (∀ i : ℕ, i < size →
      (inclusiveScan (generateRandomData size raw)).getD i 0 ≤ 1000000000) ∧
    ((1000000000 : ℤ) < 2 ^ 31) := by
  refine ⟨generateRandomData_length size raw,
    fun x hx => generateRandomData_mem _ _ _ hx, ?_, by norm_num⟩
  intro i hi
  have hlen := generateRandomData_length size raw
  rw [inclusiveScan_getD _ _ (by omega)]
  have hb := sumTo_le_of_bound (generateRandomData size raw) (i + 1)
    (fun x hx => (generateRandomData_mem _ _ _ hx).2)
  omega

theorem claim9_witness :
    3 ≤ 10000000 ∧
    ((generateRandomData 3 (fun i => i)).length = 3 ∧
      (∀ x ∈ generateRandomData 3 (fun i => i), 1 ≤ x ∧ x ≤ 100) ∧
      (∀ i : ℕ, i < 3 →
        (inclusiveScan (generateRandomData 3 (fun i => i))).getD i 0 ≤ 1000000000) ∧
      ((1000000000 : ℤ) < 2 ^ 31)) :=
  ⟨by decide, claim9_data_bounded 3 (fun i => i) (by decide)⟩

/-- C10: with a reported hardware concurrency of 0 the sweep bound is
`maxK = min(32, 0*4) = 0`, the loop body never runs and no `(K, time)` pair
is recorded, yet the summary still reports `bestK = 1` and `bestTime` equal
to the maximum double value — values that correspond to no measurement. -/
theorem claim10_zero_concurrency (time : ℤ → ℚ) :
    maxK 0 = 0 ∧
    (sweep time (maxK 0)).results = [] ∧
    (sweep time (maxK 0)).bestK = 1 ∧
    (sweep time (maxK 0)).bestTime = dblMax ∧
    dblMax = 2 ^ 1024 - 2 ^ 971 := by
  have h0 : maxK 0 = 0 := by decide
  refine ⟨h0, ?_, ?_, ?_, rfl⟩ <;> rw [h0] <;> rfl

end Lab2
